import Mathlib

/-!
Verification development for the DeltaHacks12 job-application automation
service.  The definitions below are shallow embeddings of the Python
sources:

* `services/headless/app/fetching/scraper.py`     (catalog ingestion)
* `services/headless/app/fetching/greenhouse.py`  (upstream fetches)
* `services/headless/app/fetching/embeddings.py`  (embedding wrapper)
* `services/headless/app/browser_store.py`        (verification sessions)
* `services/headless/app/models/applications.py`  (request validation)

JSON-decoded Python values (`dict[str, Any]` payloads from `response.json()`)
are modelled by the inductive `JValue`.  Time is modelled in seconds as `Nat`.
Network and database effects are passed in as explicit data.
-/

/-- A JSON value as decoded by `response.json()`: the payload shape that all
the `dict[str, Any]` job/detail dictionaries range over. -/
inductive JValue where
  | null
  | str (s : String)
  | num (n : Int)
  | bool (b : Bool)
  | arr (xs : List JValue)
  | obj (fields : List (String × JValue))

mutual

/-- Structural equality on JSON values (Python `==` restricted to JSON shapes). -/
def JValue.beq : JValue → JValue → Bool
  | .null, .null => true
  | .str a, .str b => a == b
  | .num a, .num b => a == b
  | .bool a, .bool b => a == b
  | .arr a, .arr b => JValue.beqList a b
  | .obj a, .obj b => JValue.beqFields a b
  | _, _ => false

/-- Pointwise equality of JSON arrays. -/
def JValue.beqList : List JValue → List JValue → Bool
  | [], [] => true
  | x :: xs, y :: ys => JValue.beq x y && JValue.beqList xs ys
  | _, _ => false

/-- Pointwise equality of JSON object field lists. -/
def JValue.beqFields : List (String × JValue) → List (String × JValue) → Bool
  | [], [] => true
  | (k1, v1) :: xs, (k2, v2) :: ys =>
      k1 == k2 && JValue.beq v1 v2 && JValue.beqFields xs ys
  | _, _ => false

end

instance : BEq JValue := ⟨JValue.beq⟩

mutual

theorem JValue.eq_of_beq : ∀ (a b : JValue), JValue.beq a b = true → a = b
  | .null, .null, _ => rfl
  | .str a, .str b, h => by
      simp only [JValue.beq, beq_iff_eq] at h; exact congrArg JValue.str h
  | .num a, .num b, h => by
      simp only [JValue.beq, beq_iff_eq] at h; exact congrArg JValue.num h
  | .bool a, .bool b, h => by
      simp only [JValue.beq, beq_iff_eq] at h; exact congrArg JValue.bool h
  | .arr a, .arr b, h => by
      simp only [JValue.beq] at h
      exact congrArg JValue.arr (JValue.eqList_of_beqList a b h)
  | .obj a, .obj b, h => by
      simp only [JValue.beq] at h
      exact congrArg JValue.obj (JValue.eqFields_of_beqFields a b h)

theorem JValue.eqList_of_beqList : ∀ (a b : List JValue), JValue.beqList a b = true → a = b
  | [], [], _ => rfl
  | x :: xs, y :: ys, h => by
      simp only [JValue.beqList, Bool.and_eq_true] at h
      have h1 := JValue.eq_of_beq x y h.1
      have h2 := JValue.eqList_of_beqList xs ys h.2
      rw [h1, h2]

theorem JValue.eqFields_of_beqFields :
    ∀ (a b : List (String × JValue)), JValue.beqFields a b = true → a = b
  | [], [], _ => rfl
  | (k1, v1) :: xs, (k2, v2) :: ys, h => by
      simp only [JValue.beqFields, Bool.and_eq_true, beq_iff_eq] at h
      have h1 := JValue.eq_of_beq v1 v2 h.1.2
      have h2 := JValue.eqFields_of_beqFields xs ys h.2
      rw [h.1.1, h1, h2]

end

mutual

theorem JValue.beq_refl : ∀ (a : JValue), JValue.beq a a = true
  | .null => rfl
  | .str a => by simp [JValue.beq]
  | .num a => by simp [JValue.beq]
  | .bool a => by simp [JValue.beq]
  | .arr a => by simp only [JValue.beq]; exact JValue.beqList_refl a
  | .obj a => by simp only [JValue.beq]; exact JValue.beqFields_refl a

theorem JValue.beqList_refl : ∀ (a : List JValue), JValue.beqList a a = true
  | [] => rfl
  | x :: xs => by
      simp only [JValue.beqList, Bool.and_eq_true]
      exact ⟨JValue.beq_refl x, JValue.beqList_refl xs⟩

theorem JValue.beqFields_refl : ∀ (a : List (String × JValue)), JValue.beqFields a a = true
  | [] => rfl
  | (k, v) :: xs => by
      simp only [JValue.beqFields, Bool.and_eq_true]
      exact ⟨⟨by simp, JValue.beq_refl v⟩, JValue.beqFields_refl xs⟩

end

instance : LawfulBEq JValue where
  eq_of_beq h := JValue.eq_of_beq _ _ h
  rfl := JValue.beq_refl _

instance : DecidableEq JValue := fun a b =>
  if h : JValue.beq a b = true then .isTrue (JValue.eq_of_beq a b h)
  else .isFalse (fun he => h (he ▸ JValue.beq_refl a))

/-- A Python dictionary with string keys: the shape of `dict[str, Any]`
payloads. -/
abbrev JObj := List (String × JValue)

/-- First value bound to key `k`, if any (a Python `dict` never holds a key
twice; association lists used here are read through their first binding). -/
def jlookup (o : JObj) (k : String) : Option JValue :=
  match o with
  | [] => none
  | (k1, v) :: rest => if k1 = k then some v else jlookup rest k

/-- Python `o.get(k)`: `None` when the key is absent.  An absent key and a
key bound to `None` are both mapped to `JValue.null`, exactly as `dict.get`
collapses them. -/
def dget (o : JObj) (k : String) : JValue :=
  (jlookup o k).getD .null

/-- Python `o.get(k, d)`: the default is used only when the key is absent
(a key bound to `None` still returns `None`). -/
def dgetD (o : JObj) (k : String) (d : JValue) : JValue :=
  (jlookup o k).getD d

/-- Python truthiness of a JSON value (`bool(v)`). -/
def jtruthy : JValue → Bool
  | .null => false
  | .str s => s ≠ ""
  | .num n => n ≠ 0
  | .bool b => b
  | .arr xs => ¬ xs.isEmpty
  | .obj fields => ¬ fields.isEmpty

/-- Python `str(v)` rendering, used only to build embedding source text via
f-strings; arrays and objects get a simplified rendering (no claim depends
on their exact textual form). -/
def jToStr : JValue → String
  | .null => "None"
  | .str s => s
  | .num n => toString n
  | .bool b => if b then "True" else "False"
  | .arr _ => "[...]"
  | .obj _ => "{...}"

/-- Drop everything between `<` and `>` from a character stream: the
tag-stripping core of `BeautifulSoup(html).get_text`. -/
def stripTags : List Char → Bool → List Char
  | [], _ => []
  | c :: cs, inTag =>
      if c = '<' then stripTags cs true
      else if c = '>' then stripTags cs false
      else if inTag then stripTags cs true
      else c :: stripTags cs inTag

/-- Collapse whitespace runs and trim, modelling
`get_text(separator=" ", strip=True)`. -/
def normalizeWs (s : String) : String :=
  " ".intercalate ((s.split Char.isWhitespace).filter (· ≠ ""))

/-- Model of `BeautifulSoup(html, "html.parser").get_text(separator=" ",
strip=True)` on a string input: strip tags, then normalize whitespace. -/
def soupGetText (html : String) : String :=
  normalizeWs (String.mk (stripTags html.data false))

/-- Model of `scraper.html_to_text`.  A falsy value (`None`, `""`, `0`,
`False`, `[]`, `{}`) yields `""` via the `if not html` guard.  A truthy
string is reduced to plain text.  A truthy non-string reaches
`BeautifulSoup(markup, "html.parser")`, which raises `TypeError` (for an
`int`/`bool`, `len(markup)` in its constructor has no meaning; for
list/dict markup the tree builder rejects it): that raise is modelled as
`Except.error`. -/
def html_to_text (html : JValue) : Except String String :=
  if ¬ jtruthy html then .ok ""
  else
    match html with
    | .str s => .ok (soupGetText s)
    | _ => .error "TypeError: BeautifulSoup markup must be a string"

/-- Model of `scraper.extract_location`: a nested-object shape yields its
`name` member (absent name gives `None`), a string shape yields itself, and
every other shape yields `None`. -/
def extract_location (job : JObj) : JValue :=
  match dget job "location" with
  | .obj fields => dget fields "name"
  | .str s => .str s
  | _ => .null

/-- Model of `scraper.extract_department`: the first element of a truthy
`departments` list, when it is an object, yields its `name` member; every
other shape yields `None`. -/
def extract_department (job : JObj) : JValue :=
  match dgetD job "departments" (.arr []) with
  | .arr (first :: _) =>
      match first with
      | .obj fields => dget fields "name"
      | _ => .null
  | _ => .null

/-- Whether a character is an ASCII digit. -/
def isDigitChar (c : Char) : Bool := c.isDigit

/-- Executable acceptance model of `datetime.fromisoformat`:
`YYYY-MM-DD`, optionally followed by `T` or a space and `HH:MM:SS`, with an
optional `±HH:MM` offset.  (The claims only rely on well-formed inputs
parsing and clearly malformed inputs raising `ValueError`.) -/
def fromisoformat_ok (s : String) : Bool :=
  let cs := s.data
  let digitsAt (l : List Char) (n : Nat) : Bool := (l.take n).length = n && (l.take n).all isDigitChar
  match cs with
  | y1 :: y2 :: y3 :: y4 :: '-' :: m1 :: m2 :: '-' :: d1 :: d2 :: rest =>
      ([y1, y2, y3, y4].all isDigitChar) && ([m1, m2].all isDigitChar) &&
      ([d1, d2].all isDigitChar) &&
      (match rest with
       | [] => true
       | sep :: h1 :: h2 :: ':' :: n1 :: n2 :: ':' :: s1 :: s2 :: tz =>
           (sep = 'T' || sep = ' ') && ([h1, h2, n1, n2, s1, s2].all isDigitChar) &&
           (match tz with
            | [] => true
            | sign :: o1 :: o2 :: ':' :: o3 :: o4 :: [] =>
                (sign = '+' || sign = '-') && digitsAt [o1, o2, o3, o4] 4
            | _ => false)
       | _ => false)
  | _ => false

/-- The `updated_at` value stored on a job document: either the timestamp
parsed from the upstream string (after the `"Z" → "+00:00"` rewrite) or
the `datetime.utcnow()` fallback. -/
inductive Timestamp where
  | parsed (s : String)
  | now
  deriving DecidableEq, Repr

/-- Model of the `updated_at` handling in `scraper.transform_job_to_document`:
a falsy value skips parsing (leaving `None`, which `or`-defaults to now); a
truthy non-string raises `AttributeError` on `.replace`, caught by the
`except (ValueError, AttributeError)` arm; a truthy string is parsed, with
`ValueError` on malformed input caught the same way.  Every caught path
falls back to `datetime.utcnow()`. -/
def parse_updated_at (v : JValue) : Timestamp :=
  if ¬ jtruthy v then .now
  else
    match v with
    | .str s =>
        let s1 := s.replace "Z" "+00:00"
        if fromisoformat_ok s1 then .parsed s1 else .now
    | _ => .now

/-- A job-catalog document as produced by
`scraper.transform_job_to_document` (plus the `embedding` key added by
`process_job`). -/
structure JobDoc where
  greenhouse_id : JValue
  company_token : String
  company_name : String
  title : JValue
  location : JValue
  department : JValue
  description_html : JValue
  description_text : String
  absolute_url : JValue
  updated_at : Timestamp
  active : Bool
  embedding : List Int := []
  deriving DecidableEq

/-- Model of `scraper.transform_job_to_document`.  Only the
`html_to_text` call can raise (see `html_to_text`); every other access is a
defensive `.get`. -/
def transform_job_to_document (job : JObj) (company_token company_name : String) :
    Except String JobDoc :=
  let description_html := dgetD job "content" (.str "")
  match html_to_text description_html with
  | .error e => .error e
  | .ok description_text =>
      .ok { greenhouse_id := dget job "id"
            company_token := company_token
            company_name := company_name
            title := dgetD job "title" (.str "")
            location := extract_location job
            department := extract_department job
            description_html := description_html
            description_text := description_text
            absolute_url := dgetD job "absolute_url" (.str "")
            updated_at := parse_updated_at (dget job "updated_at")
            active := true }

/-- Model of `embeddings.create_job_embedding_text`: labeled lines for the
truthy members among title, location, department and plain-text
description, joined by newlines. -/
def create_job_embedding_text (doc : JobDoc) : String :=
  let parts :=
    (if jtruthy doc.title then ["Title: " ++ jToStr doc.title] else []) ++
    (if jtruthy doc.location then ["Location: " ++ jToStr doc.location] else []) ++
    (if jtruthy doc.department then ["Department: " ++ jToStr doc.department] else []) ++
    (if doc.description_text ≠ "" then ["Description: " ++ doc.description_text] else [])
  "\n".intercalate parts

/-- The `[0.0] * EMBEDDING_DIMENSION` zero vector (`EMBEDDING_DIMENSION =
768`); vector entries are modelled as integers since no arithmetic is ever
performed on them. -/
def zero_vector : List Int := List.replicate 768 0

/-- Model of `embeddings.generate_embedding`.  `clientConfigured` is whether
the module-global `_client` is set, `apiKeyPresent` whether `GEMINI_API_KEY`
is in the environment, and `apiResult` the outcome of the whole guarded
`embed_content` block (`Except.error` covers any exception raised inside the
`try`, including a malformed success payload).  Empty or whitespace-only
text short-circuits to the zero vector before any client access; a missing
client with a missing key makes `configure_gemini()` raise `ValueError`
outside the `try`; otherwise an erroring call is caught and mapped to the
zero vector. -/
def generate_embedding (clientConfigured apiKeyPresent : Bool)
    (apiResult : Except String (List Int)) (text : String) :
    Except String (List Int) :=
  if text = "" || text.trim = "" then .ok zero_vector
  else if ¬ clientConfigured && ¬ apiKeyPresent then
    .error "GEMINI_API_KEY environment variable is required"
  else
    match apiResult with
    | .ok v => .ok v
    | .error _ => .ok zero_vector

/-- Python `xs[:l]` on a list, including the negative-bound case
(`xs[:-k]` drops the last `k` elements, clamping at the empty list). -/
def pySliceTake (l : Int) (xs : List JValue) : List JValue :=
  if 0 ≤ l then xs.take l.toNat
  else xs.take (xs.length - (-l).toNat)

/-- Python `s[:l]` on a string. -/
def pySliceStr (l : Int) (s : String) : String :=
  if 0 ≤ l then String.mk (s.data.take l.toNat)
  else String.mk (s.data.take (s.data.length - (-l).toNat))

/-- `DEFAULT_JOBS_PER_COMPANY` from `greenhouse.py`. -/
def DEFAULT_JOBS_PER_COMPANY : Int := 10

/-- The `limit` resolution in `greenhouse.fetch_jobs_for_company`: the
explicit argument when given, else `int(os.getenv("JOBS_PER_COMPANY",
DEFAULT_JOBS_PER_COMPANY))`; `envLimit` is the parsed environment value
when the variable is set to a valid integer literal. -/
def resolve_limit (arg envLimit : Option Int) : Int :=
  arg.getD (envLimit.getD DEFAULT_JOBS_PER_COMPANY)

/-- Model of `greenhouse.fetch_jobs_for_company`.  `upstream` is the outcome
of the rate-limited `client.get` + `raise_for_status` + `response.json()`
prelude; `Except.error` covers every raised `httpx` or other exception, all
of which are caught and mapped to `[]`.  On success, `data.get("jobs", [])`
is sliced to `jobs[:limit]`; a payload on which `.get` or the slice raises
(`data` not a dict, `jobs` not sliceable) is likewise caught and mapped to
`[]`. -/
def fetch_jobs_for_company (arg envLimit : Option Int)
    (upstream : Except String JValue) : JValue :=
  let limit := resolve_limit arg envLimit
  match upstream with
  | .error _ => .arr []
  | .ok data =>
      match data with
      | .obj fields =>
          match dgetD fields "jobs" (.arr []) with
          | .arr jobs => .arr (pySliceTake limit jobs)
          | .str s => .str (pySliceStr limit s)
          | _ => .arr []
      | _ => .arr []

/-- Modelled from the spec: `app.db.upsert_job` is absent from the sources
(only its caller `scraper.py` is present); per spec §4.2 step 5 the upsert
is keyed by (company token, posting id) — replace the first matching
document, else append. -/
def upsert_job (doc : JobDoc) : List JobDoc → List JobDoc
  | [] => [doc]
  | d :: rest =>
      if d.company_token = doc.company_token ∧ d.greenhouse_id = doc.greenhouse_id then
        doc :: rest
      else
        d :: upsert_job doc rest

/-- Modelled from the spec: `app.db.mark_missing_jobs_as_expired` is absent
from the sources (only its caller `scraper.py` is present); per spec §4.2
step 6 every posting of the company whose id is not in `activeIds` is
marked `active=false`. -/
def mark_missing_jobs_as_expired (token : String) (activeIds : List JValue)
    (db : List JobDoc) : List JobDoc :=
  db.map fun d =>
    if d.company_token = token ∧ activeIds.contains d.greenhouse_id = false then
      { d with active := false }
    else d

/-- Model of the inner `process_job` coroutine of `scraper.scrape_company`:
transform the detail payload, build the embedding text, attach the
embedding (the module-level client is configured: `run_scraper` aborts the
whole run before any company when `configure_gemini` fails), and hand the
document to `upsert_job`.  `embedApi` gives the embedding-call outcome for
each source text. -/
def process_job (embedApi : String → Except String (List Int))
    (token name : String) (job : JObj) : Except String JobDoc :=
  match transform_job_to_document job token name with
  | .error e => .error e
  | .ok doc =>
      let text := create_job_embedding_text doc
      match generate_embedding true true (embedApi text) text with
      | .error e => .error e
      | .ok v => .ok { doc with embedding := v }

/-- The `asyncio.gather` over `process_job` tasks: the documents in order,
or the first raised exception.  (On the error path the surviving sibling
tasks' upserts are not modelled; no claim concerns a failed pass.) -/
def process_all (embedApi : String → Except String (List Int))
    (token name : String) : List JObj → Except String (List JobDoc)
  | [] => .ok []
  | j :: rest =>
      match process_job embedApi token name j with
      | .error e => .error e
      | .ok d =>
          match process_all embedApi token name rest with
          | .error e => .error e
          | .ok ds => .ok (d :: ds)

/-- The `active_ids` computation of `scraper.scrape_company`:
`[job.get("id") for job in job_details if job.get("id")]` — the *truthy*
ids of the fetched detail payloads. -/
def seen_active_ids (details : List JObj) : List JValue :=
  details.filterMap fun j =>
    if jtruthy (dget j "id") then some (dget j "id") else none

/-- Model of `scraper.scrape_company` acting on the job catalog.  `token`
and `name` are the company's `token`/`name` entries (`company.get("token",
"")`, `company.get("name", token)`); `summaries` is the
`fetch_jobs_for_company` result and `details` the `fetch_all_job_details`
result for this pass.  An empty token returns immediately; an empty summary
list still expires every existing posting of the company; otherwise the
details are processed and upserted concurrently and the ids absent from
`active_ids` are expired. -/
def scrape_company (token name : String) (summaries details : List JObj)
    (embedApi : String → Except String (List Int)) (db : List JobDoc) :
    Except String (List JobDoc) :=
  if token = "" then .ok db
  else if summaries.isEmpty then
    .ok (mark_missing_jobs_as_expired token [] db)
  else
    match process_all embedApi token name details with
    | .error e => .error e
    | .ok docs =>
        let db1 := docs.foldl (fun acc d => upsert_job d acc) db
        .ok (mark_missing_jobs_as_expired token (seen_active_ids details) db1)

/-- Running totals accumulated by the company loop of
`scraper.run_scraper`. -/
structure RunTotals where
  total_jobs : Nat
  companies_scraped : Nat
  deriving DecidableEq

/-- Model of the per-company loop of `scraper.run_scraper`: each company's
`scrape_company` call is wrapped in `try/except Exception`, so a raise is
logged (`none` in the outcome list) and the loop continues with the next
company. -/
def run_scraper_loop (scrape : String → Except String Nat) :
    List String → RunTotals → RunTotals × List (Option Nat)
  | [], t => (t, [])
  | c :: rest, t =>
      match scrape c with
      | .ok n =>
          let t1 : RunTotals :=
            ⟨t.total_jobs + n, t.companies_scraped + (if 0 < n then 1 else 0)⟩
          let r := run_scraper_loop scrape rest t1
          (r.1, some n :: r.2)
      | .error _ =>
          let r := run_scraper_loop scrape rest t
          (r.1, none :: r.2)

/-- `SESSION_TIMEOUT_SECONDS` from `browser_store.py`. -/
def SESSION_TIMEOUT_SECONDS : Nat := 900

/-- A `browser_store.PendingSession`: the browser/page/context triple is an
opaque automation resource, identified here by a `Nat` handle (distinct
live Python objects get distinct handles); `created_at` is in seconds. -/
structure PendingSession where
  resource : Nat
  created_at : Nat
  deriving DecidableEq, Repr

/-- `PendingSession.is_expired` at time `now`:
`datetime.utcnow() > created_at + timedelta(seconds=900)`. -/
def PendingSession.is_expired (now : Nat) (s : PendingSession) : Bool :=
  SESSION_TIMEOUT_SECONDS + s.created_at < now

/-- The process-wide state of `browser_store`: the `_pending_sessions`
table, the `_close_session` tasks scheduled through `asyncio.create_task`
but not yet run, the resources popped from the table whose
`browser.close()` is still in flight, and the resources on which
`browser.close()` has been invoked. -/
structure StoreState where
  sessions : List (String × PendingSession)
  queue : List String
  inFlight : List Nat
  released : List Nat
  deriving DecidableEq, Repr

/-- The store at module import: an empty table and no tasks. -/
def emptyStore : StoreState := ⟨[], [], [], []⟩

/-- `_pending_sessions.get(application_id)` on the association-list table. -/
def lookupSession (id : String) : List (String × PendingSession) → Option PendingSession
  | [] => none
  | (k, s) :: rest => if k = id then some s else lookupSession id rest

/-- Remove the binding of `id` (the effect of `dict.pop(id, None)` on the
bindings). -/
def eraseKey (id : String) : List (String × PendingSession) → List (String × PendingSession)
  | [] => []
  | (k, s) :: rest => if k = id then rest else (k, s) :: eraseKey id rest

/-- Model of `browser_store.store_session` at time `now`: when an entry for
`application_id` already exists, `asyncio.create_task(_close_session(id))`
only *schedules* the close — `store_session` is synchronous, so the new
session is installed in the table before that task can run. -/
def store_session (now : Nat) (id : String) (res : Nat) (st : StoreState) : StoreState :=
  let queue1 := if (lookupSession id st.sessions).isSome then st.queue ++ [id] else st.queue
  { st with sessions := (id, ⟨res, now⟩) :: eraseKey id st.sessions, queue := queue1 }

/-- Model of `browser_store.get_session` at time `now`: `None` when absent;
on an expired session, schedule an asynchronous `_close_session` and return
`None`; otherwise return the live session.  The returned state is the table
state when `get_session` returns. -/
def get_session (now : Nat) (id : String) (st : StoreState) :
    Option PendingSession × StoreState :=
  match lookupSession id st.sessions with
  | none => (none, st)
  | some s =>
      if s.is_expired now then
        (none, { st with queue := st.queue ++ [id] })
      else
        (some s, st)

/-- The synchronous head of `_close_session`:
`_pending_sessions.pop(application_id, None)` removes the entry from the
table; when an entry was present its resource moves to the in-flight
`browser.close()` call that follows the pop. -/
def close_pop (id : String) (st : StoreState) : StoreState :=
  match lookupSession id st.sessions with
  | none => st
  | some s =>
      { st with sessions := eraseKey id st.sessions, inFlight := s.resource :: st.inFlight }

/-- Completion of the awaited `browser.close()`: the resource is no longer
in flight and the close has been invoked on it exactly once. -/
def close_finish (r : Nat) (st : StoreState) : StoreState :=
  { st with inFlight := st.inFlight.erase r, released := r :: st.released }

/-- Outcome of `session.browser.close()`: the call may raise. -/
def browser_close (fails : Bool) : Except String Unit :=
  if fails then .error "browser close failed" else .ok ()

/-- Model of `browser_store._close_session` run to completion: pop the
entry, then await `browser.close()` under `try/except Exception` — a
raising close is logged and swallowed, so the caller sees the same final
state either way and the function never propagates an error. -/
def close_session (fails : Bool) (id : String) (st : StoreState) : StoreState :=
  match lookupSession id st.sessions with
  | none => st
  | some s =>
      let stMid := close_pop id st
      match browser_close fails with
      | .ok _ => close_finish s.resource stMid
      | .error _ => close_finish s.resource stMid

/-- Model of `browser_store.remove_session`: it only awaits
`_close_session`. -/
def remove_session (fails : Bool) (id : String) (st : StoreState) : StoreState :=
  close_session fails id st

/-- Run the scheduled `_close_session` tasks of the queue to completion, in
scheduling order. -/
def runQueue (st : StoreState) : StoreState :=
  st.queue.foldl (fun acc id => close_session false id acc) { st with queue := [] }

/-- One cooperative step of the store: the synchronous calls
(`store_session`, `get_session`) are atomic between `await` points; a
scheduled `_close_session` task and the direct `remove_session` path each
split into the synchronous pop and the awaited `browser.close()`
completion.  A freshly stored resource is a new Python object, distinct
from every handle already known to the store. -/
inductive StoreStep : StoreState → StoreState → Prop where
  | store (now : Nat) (id : String) (res : Nat) (st : StoreState)
      (hfresh : res ∉ st.sessions.map (fun p => p.2.resource) ++ st.inFlight ++ st.released) :
      StoreStep st (store_session now id res st)
  | getq (now : Nat) (id : String) (st : StoreState) :
      StoreStep st (get_session now id st).2
  | closeTask (id : String) (st : StoreState) (hid : id ∈ st.queue) :
      StoreStep st (close_pop id { st with queue := st.queue.erase id })
  | closeDirect (id : String) (st : StoreState) :
      StoreStep st (close_pop id st)
  | closeFinish (r : Nat) (st : StoreState) (hr : r ∈ st.inFlight) :
      StoreStep st (close_finish r st)

/-- States of `browser_store` reachable from module import. -/
def ReachableStore (st : StoreState) : Prop :=
  Relation.ReflTransGen StoreStep emptyStore st

/-- Model of the pydantic `VerifyRequest` input validation:
`code: str = Field(..., min_length=8, max_length=8)`. -/
def verify_request_valid (code : String) : Bool :=
  8 ≤ code.length && code.length ≤ 8

/-- Model of the code validation performed by
`test_email_verification.test_verification_callback` (lines 118-147): empty
code, wrong length and non-digit codes each produce a distinct error
status. -/
def test_validate_code (code : String) : String :=
  if code = "" then "error: no code provided"
  else if code.length ≠ 8 then "error: invalid code length"
  else if ¬ (code.data.all isDigitChar) then "error: code must contain only digits"
  else "success"

theorem lookupSession_eq_none_of_not_mem (id : String)
    (l : List (String × PendingSession)) (h : id ∉ l.map Prod.fst) :
    lookupSession id l = none := by
  induction l with
  | nil => rfl
  | cons p rest ih =>
      obtain ⟨k, s⟩ := p
      simp only [List.map_cons, List.mem_cons] at h
      push_neg at h
      have hk : ¬ (k = id) := fun he => h.1 he.symm
      simp only [lookupSession, if_neg hk]
      exact ih h.2

theorem eraseKey_sublist (id : String) (l : List (String × PendingSession)) :
    (eraseKey id l).Sublist l := by
  induction l with
  | nil => simp [eraseKey]
  | cons p rest ih =>
      obtain ⟨k, s⟩ := p
      by_cases hk : k = id
      · simp only [eraseKey, if_pos hk]
        exact List.sublist_cons_self (k, s) rest
      · simp only [eraseKey, if_neg hk]
        exact ih.cons₂ (k, s)

theorem lookupSession_perm_eraseKey (id : String) (s : PendingSession)
    (l : List (String × PendingSession)) (h : lookupSession id l = some s) :
    l.Perm ((id, s) :: eraseKey id l) := by
  induction l with
  | nil => simp [lookupSession] at h
  | cons p rest ih =>
      obtain ⟨k, v⟩ := p
      by_cases hk : k = id
      · simp only [lookupSession, if_pos hk] at h
        subst hk
        injection h with h
        subst h
        simp [eraseKey]
      · simp only [lookupSession, if_neg hk] at h
        simp only [eraseKey, if_neg hk]
        exact ((ih h).cons (k, v)).trans (List.Perm.swap (id, s) (k, v) (eraseKey id rest))

theorem lookupSession_eraseKey_self (id : String)
    (l : List (String × PendingSession)) (hk : (l.map Prod.fst).Nodup) :
    lookupSession id (eraseKey id l) = none := by
  cases hl : lookupSession id l with
  | none =>
      induction l with
      | nil => rfl
      | cons p rest ih =>
          obtain ⟨k, s⟩ := p
          by_cases hke : k = id
          · simp [lookupSession, hke] at hl
          · simp only [lookupSession, if_neg hke] at hl
            simp only [List.map_cons, List.nodup_cons] at hk
            simp only [eraseKey, if_neg hke, lookupSession, if_neg hke]
            exact ih hk.2 hl
  | some s =>
      have hp := lookupSession_perm_eraseKey id s l hl
      have hkeys : (l.map Prod.fst).Perm (id :: (eraseKey id l).map Prod.fst) :=
        (hp.map Prod.fst)
      have hnd : (id :: (eraseKey id l).map Prod.fst).Nodup := hkeys.nodup_iff.mp hk
      exact lookupSession_eq_none_of_not_mem id _ (List.nodup_cons.mp hnd).1

theorem lookupSession_mem (id : String) (s : PendingSession)
    (l : List (String × PendingSession)) (h : lookupSession id l = some s) :
    (id, s) ∈ l := by
  induction l with
  | nil => simp [lookupSession] at h
  | cons p rest ih =>
      obtain ⟨k, v⟩ := p
      by_cases hk : k = id
      · simp only [lookupSession, if_pos hk] at h
        subst hk
        injection h with h
        subst h
        exact List.mem_cons_self _ _
      · simp only [lookupSession, if_neg hk] at h
        exact List.mem_cons_of_mem _ (ih h)

/-- C1: the claim says that storing a new resource for an application id
that already has a live session releases the *old* session's resource
exactly once and leaves the *new* session live.  The code schedules
`_close_session(application_id)` with `asyncio.create_task` and then
synchronously installs the new session under the same id, so when the
scheduled task runs it pops and closes the *new* session: afterwards no
session is live for the id, `browser.close()` has been invoked on the new
resource, and the old resource has never been closed (it leaks). -/
theorem store_session_replacement_closes_new_session :
    (store_session 5 "app1" 2 (store_session 0 "app1" 1 emptyStore)).sessions =
      [("app1", ⟨2, 5⟩)] ∧
    (runQueue (store_session 5 "app1" 2 (store_session 0 "app1" 1 emptyStore))).sessions = [] ∧
    (runQueue (store_session 5 "app1" 2 (store_session 0 "app1" 1 emptyStore))).released = [2] ∧
    (runQueue (store_session 5 "app1" 2 (store_session 0 "app1" 1 emptyStore))).released.count 1
      = 0 := by
  refine ⟨rfl, rfl, rfl, rfl⟩

/-- C9: `remove_session` is a no-op on a missing id, and on a present id it
removes the entry (the id no longer resolves) and invokes the resource
release exactly once; the final state does not depend on whether
`browser.close()` raised, so a release failure is never propagated to the
caller. -/
theorem remove_session_spec (fails : Bool) (id : String) (st : StoreState)
    (hk : (st.sessions.map Prod.fst).Nodup) :
    (lookupSession id st.sessions = none → remove_session fails id st = st) ∧
    (∀ s, lookupSession id st.sessions = some s →
      remove_session fails id st =
        { st with sessions := eraseKey id st.sessions,
                  released := s.resource :: st.released } ∧
      lookupSession id (remove_session fails id st).sessions = none ∧
      remove_session fails id st = remove_session (!fails) id st) := by
  constructor
  · intro hnone
    simp [remove_session, close_session, hnone]
  · intro s hsome
    have hfinal : ∀ b, close_session b id st =
        { st with sessions := eraseKey id st.sessions,
                  released := s.resource :: st.released } := by
      intro b
      simp only [close_session, hsome, close_pop, close_finish, browser_close]
      cases b <;> simp [List.erase_cons_head]
    refine ⟨hfinal fails, ?_, ?_⟩
    · simp only [remove_session, hfinal fails]
      exact lookupSession_eraseKey_self id st.sessions hk
    · simp [remove_session, hfinal]

theorem remove_session_spec_witness :
    ([("a", (⟨7, 0⟩ : PendingSession))].map Prod.fst).Nodup ∧
    remove_session true "a" ⟨[("a", ⟨7, 0⟩)], [], [], []⟩ = ⟨[], [], [], [7]⟩ := by
  refine ⟨by decide, ?_⟩
  have h := (remove_session_spec true "a" ⟨[("a", ⟨7, 0⟩)], [], [], []⟩ (by decide)).2
    ⟨7, 0⟩ rfl
  exact h.1

/-- C3: `get_session` returns none when no session is stored for the id,
and returns none when the stored session's age exceeds the 900 second TTL,
in which case the scheduled `_close_session` task removes the entry and
invokes the resource release exactly once. -/
theorem get_session_ttl_spec (now : Nat) (id : String) (st : StoreState)
    (hk : (st.sessions.map Prod.fst).Nodup) (hq : st.queue = []) :
    (lookupSession id st.sessions = none → get_session now id st = (none, st)) ∧
    (∀ s, lookupSession id st.sessions = some s →
      SESSION_TIMEOUT_SECONDS + s.created_at < now →
      s.resource ∉ st.released →
      (get_session now id st).1 = none ∧
      lookupSession id (runQueue (get_session now id st).2).sessions = none ∧
      (runQueue (get_session now id st).2).released.count s.resource = 1) := by
  constructor
  · intro hnone
    simp [get_session, hnone]
  · intro s hsome hexp hrel
    have hexpb : s.is_expired now = true := by
      simp [PendingSession.is_expired, hexp]
    have hget : get_session now id st = (none, { st with queue := st.queue ++ [id] }) := by
      simp [get_session, hsome, hexpb]
    have hclose : close_session false id { st with queue := [] } =
        { st with queue := [],
                  sessions := eraseKey id st.sessions,
                  released := s.resource :: st.released } := by
      simp only [close_session, hsome, close_pop, close_finish, browser_close]
      simp [List.erase_cons_head]
    have hrun : runQueue (get_session now id st).2 =
        { st with queue := [],
                  sessions := eraseKey id st.sessions,
                  released := s.resource :: st.released } := by
      rw [hget]
      simp only [runQueue, hq]
      simp only [List.nil_append, List.foldl_cons, List.foldl_nil]
      exact hclose
    refine ⟨by simp [hget], ?_, ?_⟩
    · rw [hrun]
      exact lookupSession_eraseKey_self id st.sessions hk
    · rw [hrun]
      simp [List.count_cons, List.count_eq_zero_of_not_mem hrel]

theorem get_session_ttl_spec_witness :
    (get_session 1000 "app1" ⟨[("app1", ⟨1, 0⟩)], [], [], []⟩).1 = none ∧
    lookupSession "app1"
      (runQueue (get_session 1000 "app1" ⟨[("app1", ⟨1, 0⟩)], [], [], []⟩).2).sessions = none ∧
    (runQueue (get_session 1000 "app1" ⟨[("app1", ⟨1, 0⟩)], [], [], []⟩).2).released.count 1
      = 1 := by
  have h := (get_session_ttl_spec 1000 "app1" ⟨[("app1", ⟨1, 0⟩)], [], [], []⟩
    (by decide) rfl).2 ⟨1, 0⟩ rfl (by decide) (by decide)
  exact h

/-- C4: the claim says a verification code that is not exactly 8 digits is
rejected by input validation.  The pydantic `VerifyRequest` model only
constrains the length (`min_length=8, max_length=8`), so the 8-letter code
"abcdefgh" — not a digit string — passes API input validation, although the
field's own description reads "8-digit verification code" and the
repository's verification test helper rejects exactly that input as "must
contain only digits".  Codes of exactly 8 digits do pass, and wrong-length
codes are rejected. -/
theorem verify_request_length_only_validation :
    verify_request_valid "abcdefgh" = true ∧
    "abcdefgh".data.all isDigitChar = false ∧
    test_validate_code "abcdefgh" = "error: code must contain only digits" ∧
    verify_request_valid "12345678" = true ∧
    test_validate_code "12345678" = "success" ∧
    verify_request_valid "1234567" = false ∧
    verify_request_valid "123456789" = false := by
  refine ⟨by decide, by decide, by decide, by decide, by decide, by decide, by decide⟩

/-- C10: `fetch_jobs_for_company` truncates the upstream job list to the
first `limit` entries, where `limit` is the `JOBS_PER_COMPANY` environment
value when set and 10 (`DEFAULT_JOBS_PER_COMPANY`) otherwise, so the fetch
never yields more than the cap and yields exactly the truncated prefix. -/
theorem fetch_jobs_truncates_to_limit (arg envLimit : Option Int)
    (fields : JObj) (jobs : List JValue)
    (hpos : 0 ≤ resolve_limit arg envLimit)
    (hjobs : dgetD fields "jobs" (.arr []) = .arr jobs) :
    fetch_jobs_for_company arg envLimit (.ok (.obj fields)) =
      .arr (jobs.take (resolve_limit arg envLimit).toNat) ∧
    (jobs.take (resolve_limit arg envLimit).toNat).length ≤
      (resolve_limit arg envLimit).toNat ∧
    resolve_limit none none = 10 := by
  refine ⟨?_, ?_, rfl⟩
  · simp [fetch_jobs_for_company, hjobs, pySliceTake, hpos]
  · simp [List.length_take]

theorem fetch_jobs_truncates_to_limit_witness :
    fetch_jobs_for_company none none
      (.ok (.obj [("jobs", .arr (List.replicate 15 JValue.null))])) =
      .arr (List.replicate 10 JValue.null) := by
  have h := fetch_jobs_truncates_to_limit none none
    [("jobs", .arr (List.replicate 15 JValue.null))] (List.replicate 15 JValue.null)
    (by decide) rfl
  rw [h.1]
  rfl

/-- C6: `generate_embedding` (with the module client configured, as it is
for the whole ingestion run) never raises: it returns the 768-entry all-zero
vector when the embedding call fails or the text is empty, returns the API
vector on success with non-empty text, and consequently an embedding
failure never prevents `process_job` from producing a document for
`upsert_job` — the job document is produced with the zero vector instead. -/
theorem generate_embedding_never_raises (apiResult : Except String (List Int)) (text : String) :
    (∃ v, generate_embedding true true apiResult text = .ok v) ∧
    ((∃ e, apiResult = .error e) ∨ text = "" →
      generate_embedding true true apiResult text = .ok zero_vector) ∧
    zero_vector.length = 768 ∧
    (∀ x ∈ zero_vector, x = 0) ∧
    (∀ (job : JObj) (token name : String) (doc : JobDoc),
      transform_job_to_document job token name = .ok doc →
      process_job (fun _ => .error "embedding api down") token name job =
        .ok { doc with embedding := zero_vector }) := by
  refine ⟨?_, ?_, by rw [zero_vector, List.length_replicate], ?_, ?_⟩
  · unfold generate_embedding
    by_cases he : (text = "" || text.trim = "") = true
    · exact ⟨zero_vector, by simp [he]⟩
    · cases apiResult with
      | ok v => exact ⟨v, by simp [he]⟩
      | error e => exact ⟨zero_vector, by simp [he]⟩
  · intro h
    unfold generate_embedding
    rcases h with ⟨e, he⟩ | he
    · subst he
      by_cases ht : (text = "" || text.trim = "") = true <;> simp [ht]
    · subst he
      simp
  · intro x hx
    simp only [zero_vector, List.mem_replicate] at hx
    exact hx.2
  · intro job token name doc hdoc
    unfold process_job
    rw [hdoc]
    unfold generate_embedding
    by_cases ht : (create_job_embedding_text doc = "" ||
        (create_job_embedding_text doc).trim = "") = true <;> simp [ht]

theorem generate_embedding_never_raises_witness :
    (∃ e, (Except.error "api down" : Except String (List Int)) = .error e) ∧
    generate_embedding true true (.error "api down") "Title: x" = .ok zero_vector := by
  refine ⟨⟨"api down", rfl⟩, ?_⟩
  exact (generate_embedding_never_raises (.error "api down") "Title: x").2.1
    (Or.inl ⟨"api down", rfl⟩)

/-- C5: an upstream error while fetching posting summaries makes
`fetch_jobs_for_company` return the empty list as a value (every raised
exception is caught), and the per-company `try/except` in `run_scraper`
means each company's outcome in a run depends only on its own scrape — a
raise in one company is logged as a skipped company and the remaining
companies are still processed. -/
theorem ingestion_error_isolation :
    (∀ (arg envLimit : Option Int) (e : String),
      fetch_jobs_for_company arg envLimit (.error e) = .arr []) ∧
    (∀ (scrape : String → Except String Nat) (cs : List String) (t : RunTotals),
      (run_scraper_loop scrape cs t).2 = cs.map fun c => (scrape c).toOption) := by
  constructor
  · intro arg envLimit e
    rfl
  · intro scrape cs
    induction cs with
    | nil => intro t; rfl
    | cons c rest ih =>
        intro t
        cases h : scrape c with
        | ok n => simp [run_scraper_loop, h, ih, Except.toOption]
        | error e => simp [run_scraper_loop, h, ih, Except.toOption]

theorem extract_location_of_str (o : JObj) (s : String)
    (h : jlookup o "location" = some (.str s)) : extract_location o = .str s := by
  unfold extract_location dget
  rw [h]
  rfl

theorem extract_location_of_obj (o : JObj) (fs : JObj)
    (h : jlookup o "location" = some (.obj fs)) : extract_location o = dget fs "name" := by
  unfold extract_location dget
  rw [h]
  rfl

theorem extract_location_of_absent (o : JObj)
    (h : jlookup o "location" = none) : extract_location o = .null := by
  unfold extract_location dget
  rw [h]
  rfl

theorem extract_location_of_other (o : JObj) (v : JValue)
    (h : jlookup o "location" = some v)
    (hs : ∀ s, v ≠ .str s) (ho : ∀ fs, v ≠ .obj fs) : extract_location o = .null := by
  unfold extract_location dget
  rw [h]
  cases v with
  | str s => exact absurd rfl (hs s)
  | obj fs => exact absurd rfl (ho fs)
  | null => rfl
  | num n => rfl
  | bool b => rfl
  | arr xs => rfl

theorem extract_department_of_objList (o : JObj) (fs : JObj) (r : List JValue)
    (h : jlookup o "departments" = some (.arr (.obj fs :: r))) :
    extract_department o = dget fs "name" := by
  unfold extract_department dgetD
  rw [h]
  rfl

theorem extract_department_of_absent (o : JObj)
    (h : jlookup o "departments" = none) : extract_department o = .null := by
  unfold extract_department dgetD
  rw [h]
  rfl

theorem extract_department_of_other (o : JObj) (v : JValue)
    (h : jlookup o "departments" = some v)
    (ha : ∀ (fs : JObj) (r : List JValue), v ≠ .arr (.obj fs :: r)) :
    extract_department o = .null := by
  unfold extract_department dgetD
  rw [h]
  cases v with
  | arr xs =>
      cases xs with
      | nil => rfl
      | cons first rest =>
          cases first with
          | obj fs => exact absurd rfl (ha fs rest)
          | null => rfl
          | str s => rfl
          | num n => rfl
          | bool b => rfl
          | arr ys => rfl
  | null => rfl
  | str s => rfl
  | num n => rfl
  | bool b => rfl
  | obj fs => rfl

/-- C7 (amended): for every detail payload whose `content` value is falsy
or a string, the transform produces a document without raising; location
and department are extracted from both string and nested-object shapes and
are null when absent or of unknown shape; the HTML description is reduced
to plain text; and a missing or malformed upstream timestamp falls back to
the current time.  (A truthy non-string `content` raises inside
`BeautifulSoup` — see `transform_job_nonstring_content_raises`.) -/
theorem transform_job_defensive (job : JObj) (token name : String)
    (hcontent : jtruthy (dgetD job "content" (.str "")) = false ∨
      ∃ s, dgetD job "content" (.str "") = JValue.str s) :
    ∃ doc, transform_job_to_document job token name = .ok doc ∧
      doc.location = extract_location job ∧
      doc.department = extract_department job ∧
      doc.updated_at = parse_updated_at (dget job "updated_at") ∧
      html_to_text (dgetD job "content" (.str "")) = .ok doc.description_text ∧
      (jtruthy (dget job "updated_at") = false → doc.updated_at = .now) ∧
      (∀ s, dget job "updated_at" = .str s →
        fromisoformat_ok (s.replace "Z" "+00:00") = false → doc.updated_at = .now) := by
  have htext : ∃ t, html_to_text (dgetD job "content" (.str "")) = .ok t := by
    rcases hcontent with hfalsy | ⟨s, hstr⟩
    · exact ⟨"", by simp [html_to_text, hfalsy]⟩
    · rw [hstr]
      by_cases ht : jtruthy (.str s) = true
      · exact ⟨soupGetText s, by simp [html_to_text, ht]⟩
      · exact ⟨"", by simp [html_to_text, ht]⟩
  obtain ⟨t, ht⟩ := htext
  refine ⟨{ greenhouse_id := dget job "id"
            company_token := token
            company_name := name
            title := dgetD job "title" (.str "")
            location := extract_location job
            department := extract_department job
            description_html := dgetD job "content" (.str "")
            description_text := t
            absolute_url := dgetD job "absolute_url" (.str "")
            updated_at := parse_updated_at (dget job "updated_at")
            active := true
            embedding := [] }, ?_, rfl, rfl, rfl, ht, ?_, ?_⟩
  · simp only [transform_job_to_document, ht]
  · intro hfalsy
    simp [parse_updated_at, hfalsy]
  · intro s hs hbad
    rw [hs]
    by_cases hne : jtruthy (JValue.str s) = true
    · simp [parse_updated_at, hne, hbad]
    · simp [parse_updated_at, hne]

/-- C7 (counterexample): the claim quantifies over arbitrary detail
payloads, but a payload whose `content` is the truthy non-string `5`
reaches `BeautifulSoup(5, "html.parser")`, which raises `TypeError`
(`len(markup)` is applied to the markup in its constructor): the transform
raises instead of producing a document. -/
theorem transform_job_nonstring_content_raises :
    transform_job_to_document [("content", JValue.num 5)] "acme" "Acme" =
      .error "TypeError: BeautifulSoup markup must be a string" := rfl

theorem transform_job_defensive_witness :
    transform_job_to_document [("location", JValue.str "NYC")] "tok" "Tok" =
      Except.ok
        { greenhouse_id := JValue.null
          company_token := "tok"
          company_name := "Tok"
          title := JValue.str ""
          location := JValue.str "NYC"
          department := JValue.null
          description_html := JValue.str ""
          description_text := ""
          absolute_url := JValue.str ""
          updated_at := Timestamp.now
          active := true
          embedding := [] } := by
  obtain ⟨doc, h1, -⟩ := transform_job_defensive [("location", JValue.str "NYC")] "tok" "Tok"
    (Or.inr ⟨"", rfl⟩)
  rw [h1]
  exact congrArg Except.ok (Except.ok.inj (h1.symm.trans rfl))

theorem upsert_job_mem_self (doc : JobDoc) (db : List JobDoc) : doc ∈ upsert_job doc db := by
  induction db with
  | nil => simp [upsert_job]
  | cons d rest ih =>
      by_cases h : d.company_token = doc.company_token ∧ d.greenhouse_id = doc.greenhouse_id
      · simp [upsert_job, h]
      · simp only [upsert_job, if_neg h]
        exact List.mem_cons_of_mem _ ih

theorem upsert_job_key_preserved (doc : JobDoc) (db : List JobDoc) (d : JobDoc) (hd : d ∈ db) :
    ∃ d2 ∈ upsert_job doc db, d2.company_token = d.company_token ∧
      d2.greenhouse_id = d.greenhouse_id := by
  induction db with
  | nil => simp at hd
  | cons x rest ih =>
      by_cases h : x.company_token = doc.company_token ∧ x.greenhouse_id = doc.greenhouse_id
      · rcases List.mem_cons.mp hd with he | hm
        · subst he
          exact ⟨doc, by simp [upsert_job, h], h.1.symm, h.2.symm⟩
        · exact ⟨d, by simp [upsert_job, h, hm], rfl, rfl⟩
      · rcases List.mem_cons.mp hd with he | hm
        · subst he
          exact ⟨d, by simp [upsert_job, if_neg h], rfl, rfl⟩
        · obtain ⟨d2, hm2, hp2⟩ := ih hm
          refine ⟨d2, ?_, hp2⟩
          simp only [upsert_job, if_neg h, List.mem_cons]
          exact Or.inr hm2

theorem upsert_job_exists_preserved (y : JobDoc) (token : String) (gid : JValue)
    (hy : y.company_token = token ∧ y.active = true) :
    ∀ db : List JobDoc,
      (∃ d ∈ db, d.company_token = token ∧ d.greenhouse_id = gid ∧ d.active = true) →
      ∃ d ∈ upsert_job y db,
        d.company_token = token ∧ d.greenhouse_id = gid ∧ d.active = true := by
  intro db
  induction db with
  | nil => rintro ⟨d, hd, -⟩; simp at hd
  | cons x rest ih =>
      rintro ⟨d, hd, hp⟩
      by_cases h : x.company_token = y.company_token ∧ x.greenhouse_id = y.greenhouse_id
      · rcases List.mem_cons.mp hd with he | hm
        · subst he
          refine ⟨y, by simp [upsert_job, h], hy.1, h.2.symm.trans hp.2.1, hy.2⟩
        · exact ⟨d, by simp [upsert_job, h, hm], hp⟩
      · rcases List.mem_cons.mp hd with he | hm
        · subst he
          exact ⟨d, by simp [upsert_job, if_neg h], hp⟩
        · obtain ⟨d2, hm2, hp2⟩ := ih ⟨d, hm, hp⟩
          refine ⟨d2, ?_, hp2⟩
          simp only [upsert_job, if_neg h, List.mem_cons]
          exact Or.inr hm2

theorem foldl_upsert_exists (token : String) (gid : JValue) :
    ∀ (docs : List JobDoc) (db : List JobDoc),
      (∀ x ∈ docs, x.company_token = token ∧ x.active = true) →
      (∃ d ∈ db, d.company_token = token ∧ d.greenhouse_id = gid ∧ d.active = true) →
      ∃ d ∈ docs.foldl (fun acc x => upsert_job x acc) db,
        d.company_token = token ∧ d.greenhouse_id = gid ∧ d.active = true := by
  intro docs
  induction docs with
  | nil => intro db _ h; exact h
  | cons y rest ih =>
      intro db hall h
      simp only [List.foldl_cons]
      exact ih (upsert_job y db) (fun x hx => hall x (List.mem_cons_of_mem _ hx))
        (upsert_job_exists_preserved y token gid (hall y (List.mem_cons_self _ _)) db h)

theorem foldl_upsert_mem_start (token : String) (gid : JValue) :
    ∀ (docs : List JobDoc) (db : List JobDoc) (x : JobDoc),
      x ∈ docs → x.greenhouse_id = gid →
      (∀ d ∈ docs, d.company_token = token ∧ d.active = true) →
      ∃ d ∈ docs.foldl (fun acc z => upsert_job z acc) db,
        d.company_token = token ∧ d.greenhouse_id = gid ∧ d.active = true := by
  intro docs
  induction docs with
  | nil => intro db x hx; simp at hx
  | cons y rest ih =>
      intro db x hx hgid hall
      simp only [List.foldl_cons]
      rcases List.mem_cons.mp hx with he | hm
      · subst he
        refine foldl_upsert_exists token gid rest (upsert_job x db)
          (fun d hd => hall d (List.mem_cons_of_mem _ hd)) ?_
        have hxp := hall x (List.mem_cons_self _ _)
        exact ⟨x, upsert_job_mem_self x db, hxp.1, hgid, hxp.2⟩
      · exact ih (upsert_job y db) x hm hgid (fun d hd => hall d (List.mem_cons_of_mem _ hd))

theorem foldl_upsert_key_preserved :
    ∀ (docs : List JobDoc) (db : List JobDoc) (d : JobDoc), d ∈ db →
      ∃ d2 ∈ docs.foldl (fun acc x => upsert_job x acc) db,
        d2.company_token = d.company_token ∧ d2.greenhouse_id = d.greenhouse_id := by
  intro docs
  induction docs with
  | nil => exact fun db d hd => ⟨d, hd, rfl, rfl⟩
  | cons y rest ih =>
      intro db d hd
      obtain ⟨d1, hm1, hp1⟩ := upsert_job_key_preserved y db d hd
      obtain ⟨d2, hm2, hp2⟩ := ih (upsert_job y db) d1 hm1
      exact ⟨d2, by simpa using hm2, hp2.1.trans hp1.1, hp2.2.trans hp1.2⟩

theorem mark_missing_inactive (token : String) (ids : List JValue) (db : List JobDoc)
    (d : JobDoc) (hd : d ∈ mark_missing_jobs_as_expired token ids db)
    (htok : d.company_token = token) (hmiss : ids.contains d.greenhouse_id = false) :
    d.active = false := by
  simp only [mark_missing_jobs_as_expired, List.mem_map] at hd
  obtain ⟨d0, hd0, heq⟩ := hd
  subst heq
  by_cases hc : d0.company_token = token ∧ ids.contains d0.greenhouse_id = false
  · rw [if_pos hc]
  · rw [if_neg hc] at htok hmiss ⊢
    exact absurd ⟨htok, hmiss⟩ hc

theorem mark_missing_key_preserved (token : String) (ids : List JValue) (db : List JobDoc)
    (d0 : JobDoc) (hd0 : d0 ∈ db) :
    ∃ d ∈ mark_missing_jobs_as_expired token ids db,
      d.company_token = d0.company_token ∧ d.greenhouse_id = d0.greenhouse_id := by
  refine ⟨if d0.company_token = token ∧ ids.contains d0.greenhouse_id = false then
    { d0 with active := false } else d0, ?_, ?_⟩
  · simp only [mark_missing_jobs_as_expired, List.mem_map]
    exact ⟨d0, hd0, rfl⟩
  · by_cases hc : d0.company_token = token ∧ ids.contains d0.greenhouse_id = false
    · rw [if_pos hc]
      exact ⟨rfl, rfl⟩
    · rw [if_neg hc]
      exact ⟨rfl, rfl⟩

theorem mark_missing_mem_active (token : String) (ids : List JValue) (db : List JobDoc)
    (d1 : JobDoc) (hm : d1 ∈ db) (hc : ids.contains d1.greenhouse_id = true) :
    d1 ∈ mark_missing_jobs_as_expired token ids db := by
  simp only [mark_missing_jobs_as_expired, List.mem_map]
  refine ⟨d1, hm, ?_⟩
  have hnc : ¬ (d1.company_token = token ∧ ids.contains d1.greenhouse_id = false) := by
    rintro ⟨-, hf⟩
    rw [hc] at hf
    cases hf
  rw [if_neg hnc]

theorem transform_fields (job : JObj) (token name : String) (doc : JobDoc)
    (h : transform_job_to_document job token name = .ok doc) :
    doc.company_token = token ∧ doc.active = true ∧ doc.greenhouse_id = dget job "id" := by
  cases hh : html_to_text (dgetD job "content" (.str "")) with
  | error e =>
      simp only [transform_job_to_document, hh] at h
      exact Except.noConfusion h
  | ok t =>
      simp only [transform_job_to_document, hh] at h
      injection h with h
      subst h
      exact ⟨rfl, rfl, rfl⟩

theorem process_job_fields (e : String → Except String (List Int)) (token name : String)
    (j : JObj) (doc : JobDoc) (h : process_job e token name j = .ok doc) :
    doc.company_token = token ∧ doc.active = true ∧ doc.greenhouse_id = dget j "id" := by
  cases ht : transform_job_to_document j token name with
  | error e2 =>
      simp only [process_job, ht] at h
      exact Except.noConfusion h
  | ok d0 =>
      simp only [process_job, ht] at h
      cases hg : generate_embedding true true (e (create_job_embedding_text d0))
          (create_job_embedding_text d0) with
      | error e3 =>
          simp only [hg] at h
          exact Except.noConfusion h
      | ok v =>
          simp only [hg] at h
          injection h with h
          subst h
          have hf := transform_fields j token name d0 ht
          exact ⟨hf.1, hf.2.1, hf.2.2⟩

theorem process_all_fields (e : String → Except String (List Int)) (token name : String) :
    ∀ (details : List JObj) (docs : List JobDoc),
      process_all e token name details = .ok docs →
      (∀ d ∈ docs, d.company_token = token ∧ d.active = true) ∧
      (∀ j ∈ details, ∃ d ∈ docs, d.company_token = token ∧ d.active = true ∧
        d.greenhouse_id = dget j "id") := by
  intro details
  induction details with
  | nil =>
      intro docs h
      simp only [process_all] at h
      injection h with h
      subst h
      exact ⟨by simp, by simp⟩
  | cons j rest ih =>
      intro docs h
      cases hj : process_job e token name j with
      | error e2 =>
          simp only [process_all, hj] at h
          exact Except.noConfusion h
      | ok d =>
          simp only [process_all, hj] at h
          cases hr : process_all e token name rest with
          | error e2 =>
              simp only [hr] at h
              exact Except.noConfusion h
          | ok ds =>
              simp only [hr] at h
              injection h with h
              subst h
              obtain ⟨ha, hb⟩ := ih ds hr
              have hf := process_job_fields e token name j d hj
              constructor
              · intro x hx
                rcases List.mem_cons.mp hx with he | hm
                · subst he; exact ⟨hf.1, hf.2.1⟩
                · exact ha x hm
              · intro j2 hj2
                rcases List.mem_cons.mp hj2 with he | hm
                · subst he
                  exact ⟨d, List.mem_cons_self _ _, hf.1, hf.2.1, hf.2.2⟩
                · obtain ⟨d2, hd2, hp⟩ := hb j2 hm
                  exact ⟨d2, List.mem_cons_of_mem _ hd2, hp⟩

theorem seen_active_ids_contains (details : List JObj) (j : JObj) (hj : j ∈ details)
    (ht : jtruthy (dget j "id") = true) :
    (seen_active_ids details).contains (dget j "id") = true := by
  have hmem : dget j "id" ∈ seen_active_ids details := by
    simp only [seen_active_ids, List.mem_filterMap]
    exact ⟨j, hj, by simp [ht]⟩
  exact List.elem_eq_true_of_mem hmem

/-- C2 (amended): after a non-empty ingestion pass for a company, every
posting of that company whose id is not among the truthy ids of the fetched
detail payloads is marked `active=false` (previously stored postings are
preserved under their key), and every posting seen in the pass *whose
detail payload carries a truthy id* remains or becomes `active=true`.  (A
seen posting whose id is falsy — `0`, missing or null — is excluded from
`active_ids` by the truthiness filter and is deactivated instead: see
`scrape_company_zero_id_counterexample`.) -/
theorem scrape_company_staleness (token name : String) (summaries details : List JObj)
    (embedApi : String → Except String (List Int)) (db db1 : List JobDoc)
    (htok : ¬ token = "") (hsum : summaries.isEmpty = false)
    (hok : scrape_company token name summaries details embedApi db = .ok db1) :
    (∀ d ∈ db1, d.company_token = token →
      (seen_active_ids details).contains d.greenhouse_id = false → d.active = false) ∧
    (∀ d ∈ db, ∃ d2 ∈ db1, d2.company_token = d.company_token ∧
      d2.greenhouse_id = d.greenhouse_id) ∧
    (∀ j ∈ details, jtruthy (dget j "id") = true →
      ∃ d2 ∈ db1, d2.company_token = token ∧ d2.greenhouse_id = dget j "id" ∧
        d2.active = true) := by
  unfold scrape_company at hok
  rw [if_neg htok, hsum] at hok
  rw [if_neg Bool.false_ne_true] at hok
  cases hp : process_all embedApi token name details with
  | error e =>
      rw [hp] at hok
      exact Except.noConfusion hok
  | ok docs =>
      simp only [hp] at hok
      injection hok with hok
      subst hok
      obtain ⟨hall, hjs⟩ := process_all_fields embedApi token name details docs hp
      refine ⟨?_, ?_, ?_⟩
      · intro d hd ht2 hm2
        exact mark_missing_inactive token _ _ d hd ht2 hm2
      · intro d hd
        obtain ⟨d1, hm1, hp1⟩ := foldl_upsert_key_preserved docs db d hd
        obtain ⟨d2, hm2, hp2⟩ :=
          mark_missing_key_preserved token (seen_active_ids details) _ d1 hm1
        exact ⟨d2, hm2, hp2.1.trans hp1.1, hp2.2.trans hp1.2⟩
      · intro j hj htr
        obtain ⟨x, hxm, hxp⟩ := hjs j hj
        obtain ⟨d1, hm1, hp1⟩ := foldl_upsert_mem_start token (dget j "id") docs db x hxm
          hxp.2.2 (fun d hd => ⟨(hall d hd).1, (hall d hd).2⟩)
        have hcon : (seen_active_ids details).contains d1.greenhouse_id = true := by
          rw [hp1.2.1]
          exact seen_active_ids_contains details j hj htr
        have hmem := mark_missing_mem_active token (seen_active_ids details) _ d1 hm1 hcon
        exact ⟨d1, hmem, hp1.1, hp1.2.1, hp1.2.2⟩

/-- C2 (counterexample): a posting seen in both the summary and the detail
fetch of the pass, whose detail payload carries id `0`, ends the pass
marked `active=false`: `active_ids = [job.get("id") for job in job_details
if job.get("id")]` keeps only truthy ids, so id `0` is treated as missing
and `mark_missing_jobs_as_expired` deactivates the freshly upserted
document — contradicting the claim that every posting seen in the pass
remains or becomes `active=true`. -/
theorem scrape_company_zero_id_counterexample :
    scrape_company "acme" "Acme" [[("id", JValue.num 0)]] [[("id", JValue.num 0)]]
      (fun _ => Except.error "down") [] =
    Except.ok
      [{ greenhouse_id := JValue.num 0
         company_token := "acme"
         company_name := "Acme"
         title := JValue.str ""
         location := JValue.null
         department := JValue.null
         description_html := JValue.str ""
         description_text := ""
         absolute_url := JValue.str ""
         updated_at := Timestamp.now
         active := false
         embedding := zero_vector }] := rfl

theorem scrape_company_staleness_witness :
    scrape_company "acme" "Acme" [[("id", JValue.num 1)]] [[("id", JValue.num 1)]]
      (fun _ => Except.error "down")
      [⟨JValue.num 2, "acme", "Acme", JValue.str "Old", JValue.null, JValue.null,
        JValue.str "", "", JValue.str "", Timestamp.now, true, []⟩] =
    Except.ok
      [⟨JValue.num 2, "acme", "Acme", JValue.str "Old", JValue.null, JValue.null,
        JValue.str "", "", JValue.str "", Timestamp.now, false, []⟩,
       ⟨JValue.num 1, "acme", "Acme", JValue.str "", JValue.null, JValue.null,
        JValue.str "", "", JValue.str "", Timestamp.now, true, zero_vector⟩] ∧
    (⟨JValue.num 2, "acme", "Acme", JValue.str "Old", JValue.null, JValue.null,
      JValue.str "", "", JValue.str "", Timestamp.now, false, []⟩ : JobDoc).active = false := by
  refine ⟨rfl, ?_⟩
  have h := scrape_company_staleness "acme" "Acme" [[("id", JValue.num 1)]]
    [[("id", JValue.num 1)]] (fun _ => Except.error "down")
    [⟨JValue.num 2, "acme", "Acme", JValue.str "Old", JValue.null, JValue.null,
      JValue.str "", "", JValue.str "", Timestamp.now, true, []⟩]
    [⟨JValue.num 2, "acme", "Acme", JValue.str "Old", JValue.null, JValue.null,
      JValue.str "", "", JValue.str "", Timestamp.now, false, []⟩,
     ⟨JValue.num 1, "acme", "Acme", JValue.str "", JValue.null, JValue.null,
      JValue.str "", "", JValue.str "", Timestamp.now, true, zero_vector⟩]
    (by decide) rfl rfl
  exact h.1 _ (List.mem_cons_self _ _) rfl (by decide)

theorem eraseKey_keys_not_mem (id : String) (l : List (String × PendingSession))
    (hk : (l.map Prod.fst).Nodup) : id ∉ (eraseKey id l).map Prod.fst := by
  induction l with
  | nil => simp [eraseKey]
  | cons p rest ih =>
      obtain ⟨k, s⟩ := p
      simp only [List.map_cons, List.nodup_cons] at hk
      by_cases hke : k = id
      · subst hke
        simp only [eraseKey, if_pos rfl]
        exact hk.1
      · simp only [eraseKey, if_neg hke, List.map_cons, List.mem_cons]
        rintro (he | hm)
        · exact hke he.symm
        · exact ih hk.2 hm

/-- The invariant of the session table: keys are distinct (it models a
Python `dict`), live resources are distinct Python objects, and no resource
in the table is being closed or has been closed. -/
def StoreInv (st : StoreState) : Prop :=
  (st.sessions.map Prod.fst).Nodup ∧
  (st.sessions.map (fun p => p.2.resource)).Nodup ∧
  ∀ p ∈ st.sessions, p.2.resource ∉ st.inFlight ∧ p.2.resource ∉ st.released

theorem get_session_state_fields (now : Nat) (id : String) (st : StoreState) :
    (get_session now id st).2.sessions = st.sessions ∧
    (get_session now id st).2.inFlight = st.inFlight ∧
    (get_session now id st).2.released = st.released := by
  unfold get_session
  cases lookupSession id st.sessions with
  | none => exact ⟨rfl, rfl, rfl⟩
  | some s => by_cases he : s.is_expired now = true <;> simp [he]

theorem close_pop_inv (id : String) (st : StoreState) (hinv : StoreInv st) :
    StoreInv (close_pop id st) := by
  obtain ⟨hk, hres, hd⟩ := hinv
  cases hl : lookupSession id st.sessions with
  | none => simpa [close_pop, hl] using ⟨hk, hres, hd⟩
  | some s =>
      have hperm := lookupSession_perm_eraseKey id s st.sessions hl
      have hrperm : (st.sessions.map fun p => p.2.resource).Perm
          (s.resource :: (eraseKey id st.sessions).map fun p => p.2.resource) := by
        simpa using hperm.map (fun p => p.2.resource)
      have hrnodup := hrperm.nodup_iff.mp hres
      simp only [List.nodup_cons] at hrnodup
      refine ⟨?_, ?_, ?_⟩ <;> simp only [close_pop, hl]
      · exact hk.sublist ((eraseKey_sublist id st.sessions).map Prod.fst)
      · exact hrnodup.2
      · intro p hp
        have hpmem : p ∈ st.sessions := (eraseKey_sublist id st.sessions).mem hp
        have hdp := hd p hpmem
        have hne : p.2.resource ≠ s.resource := by
          intro he
          exact hrnodup.1 (he ▸ List.mem_map_of_mem (fun q => q.2.resource) hp)
        simp only [List.mem_cons]
        exact ⟨fun hc => hc.elim (fun he => hne he) hdp.1, hdp.2⟩

theorem storeStep_inv (st st1 : StoreState) (h : StoreStep st st1) (hinv : StoreInv st) :
    StoreInv st1 := by
  obtain ⟨hk, hres, hd⟩ := hinv
  cases h with
  | store now id res st hfresh =>
      simp only [List.mem_append] at hfresh
      push_neg at hfresh
      refine ⟨?_, ?_, ?_⟩ <;> simp only [store_session]
      · simp only [List.map_cons, List.nodup_cons]
        exact ⟨eraseKey_keys_not_mem id st.sessions hk,
          hk.sublist ((eraseKey_sublist id st.sessions).map Prod.fst)⟩
      · simp only [List.map_cons, List.nodup_cons]
        constructor
        · intro hc
          exact hfresh.1.1 (((eraseKey_sublist id st.sessions).map
            (fun p => p.2.resource)).mem hc)
        · exact hres.sublist ((eraseKey_sublist id st.sessions).map (fun p => p.2.resource))
      · intro p hp
        rcases List.mem_cons.mp hp with he | hm
        · subst he
          exact ⟨hfresh.1.2, hfresh.2⟩
        · exact hd p ((eraseKey_sublist id st.sessions).mem hm)
  | getq now id st =>
      obtain ⟨h1, h2, h3⟩ := get_session_state_fields now id st
      refine ⟨?_, ?_, ?_⟩
      · rw [h1]; exact hk
      · rw [h1]; exact hres
      · rw [h1, h2, h3]; exact hd
  | closeTask id st hid =>
      exact close_pop_inv id { st with queue := st.queue.erase id } ⟨hk, hres, hd⟩
  | closeDirect id st =>
      exact close_pop_inv id st ⟨hk, hres, hd⟩
  | closeFinish r st hr2 =>
      refine ⟨hk, hres, ?_⟩
      intro p hp
      have hdp := hd p hp
      constructor
      · intro hc
        exact hdp.1 (List.mem_of_mem_erase hc)
      · simp only [close_finish, List.mem_cons]
        rintro (he | hm)
        · exact hdp.1 (he ▸ hr2)
        · exact hdp.2 hm

theorem reachable_store_inv (st : StoreState) (h : ReachableStore st) : StoreInv st := by
  induction h with
  | refl => exact ⟨by simp [emptyStore], by simp [emptyStore], by simp [emptyStore]⟩
  | tail hsteps hstep ih => exact storeStep_inv _ _ hstep ih

/-- C8: in every reachable store state, a `get_session` that observes a
session observes one whose resource has not been closed and is not being
closed (the entry is full, never dangling); and because `_close_session`
pops the entry from the table before awaiting `browser.close()`, a
concurrent `get_session` running between the pop and the close sees no
entry at all for that id. -/
theorem get_session_no_dangling_resource (st : StoreState) (hr : ReachableStore st)
    (now : Nat) (id : String) (s : PendingSession)
    (hget : (get_session now id st).1 = some s) :
    s.resource ∉ st.released ∧ s.resource ∉ st.inFlight ∧
    ∀ t : StoreState, ReachableStore t → ∀ m : Nat,
      (get_session m id (close_pop id t)).1 = none := by
  have hinv := reachable_store_inv st hr
  have hl : lookupSession id st.sessions = some s := by
    unfold get_session at hget
    cases hll : lookupSession id st.sessions with
    | none =>
        rw [hll] at hget
        exact Option.noConfusion hget
    | some s2 =>
        simp only [hll] at hget
        by_cases he : s2.is_expired now = true
        · rw [if_pos he] at hget
          exact Option.noConfusion hget
        · rw [if_neg he] at hget
          exact hget
  have hdp := hinv.2.2 (id, s) (lookupSession_mem id s st.sessions hl)
  refine ⟨hdp.2, hdp.1, ?_⟩
  intro t hrt m
  have hit := reachable_store_inv t hrt
  cases hlt : lookupSession id t.sessions with
  | none => simp [close_pop, hlt, get_session]
  | some s2 =>
      have hnone := lookupSession_eraseKey_self id t.sessions hit.1
      simp [close_pop, hlt, get_session, hnone]

theorem get_session_no_dangling_resource_witness :
    (1 : Nat) ∉ (store_session 0 "a" 1 emptyStore).released ∧
    (1 : Nat) ∉ (store_session 0 "a" 1 emptyStore).inFlight := by
  have h := get_session_no_dangling_resource (store_session 0 "a" 1 emptyStore)
    (Relation.ReflTransGen.single (StoreStep.store 0 "a" 1 emptyStore (by simp [emptyStore])))
    0 "a" ⟨1, 0⟩ rfl
  exact ⟨h.1, h.2.1⟩
